import Mathlib

/-!
# Verification of the GPU quantile-sketch container (`src/common/quantile.cuh`)

Shallow embedding of the per-column quantile-sketch container of
`src/common/quantile.cuh`.  Floating-point quantities (`bst_float` values,
rank bounds, weights) are modelled exactly over `ℚ`; device vectors become
`List`s; the CSC layout becomes a list of offsets; a fatal `CHECK` abort is
modelled as `Option.none`.

Bodies present in the source header (`SketchContainer::Unique`,
`Current`/`Other`/`Alternate`, the constructor, `detail::SketchUnique`) are
translated directly.  Operations whose bodies live in the missing
`quantile.cu` / `device_helpers.cuh` (`Push`, `Prune`, `Merge`, `FixError`,
`dh::SegmentedUnique`, `IsCatOp`) are modelled from the specification and
carry a `Modelled from the spec:` doc comment.
-/

namespace XgbQuantile

/-- Type `WQSketch::Entry` (`SketchEntry`): one quantile sample with value,
rank bounds and duplicate-weight mass.  Floating point is modelled by `ℚ`. -/
structure SketchEntry where
  value : ℚ
  rmin : ℚ
  rmax : ℚ
  wmin : ℚ
deriving DecidableEq

/-- Function `Entry::RMinNext`: rank lower bound just after this entry. -/
def RMinNext (e : SketchEntry) : ℚ := e.rmin + e.wmin

/-- Function `Entry::RMaxPrev`: rank upper bound just before this entry. -/
def RMaxPrev (e : SketchEntry) : ℚ := e.rmax - e.wmin

/-- Comparator `detail::SketchUnique` (quantile.cuh lines 25-29): two entries compare
equal iff `a.value - b.value == 0`, i.e. exact value equality over `ℚ`. -/
def sketchUniqueEq (a b : SketchEntry) : Bool := a.value - b.value == 0

/-- Modelled from the spec: the per-segment compaction performed by
`dh::SegmentedUnique` (`device_helpers.cuh`, not under `src/`).  Within one
column it keeps the first element of every maximal run of entries that
compare equal (under `detail::SketchUnique`) to the last kept element, the
semantics of `thrust::unique` used on each segment. -/
def sketchUniqueCol (l : List SketchEntry) : List SketchEntry :=
  match l with
  | [] => []
  | x :: xs => x :: sketchUniqueCol (xs.dropWhile (fun y => sketchUniqueEq x y))
termination_by l.length
decreasing_by
  simp only [List.length_cons]
  exact Nat.lt_succ_of_le (List.dropWhile_suffix _).sublist.length_le

/-- Modelled from the spec: the forward clamping pass of
`SketchContainer::FixError` (body in `quantile.cu`, not under `src/`):
"clamps each entry's `rank_min` to be no less than the previous entry's
`rank_min`, and each entry's `rank_max` to be no less than its own
`rank_min` and no less than the previous entry's `rank_max`".
`pm`/`px` are the previous entry's (already clamped) `rmin`/`rmax`. -/
def fixErrorGo (pm px : ℚ) : List SketchEntry → List SketchEntry
  | [] => []
  | e :: rest =>
    let rmin := max e.rmin pm
    let rmax := max e.rmax (max rmin px)
    ⟨e.value, rmin, rmax, e.wmin⟩ :: fixErrorGo rmin rmax rest

/-- Modelled from the spec: `SketchContainer::FixError` restricted to one
column; the first entry has no predecessor, so only the `rank_max ≥ own
rank_min` clamp applies to it (seeding both running bounds with its
`rank_min` realises exactly that). -/
def fixErrorCol (l : List SketchEntry) : List SketchEntry :=
  match l with
  | [] => []
  | e :: rest => fixErrorGo e.rmin e.rmin (e :: rest)

/-! ## The container state and the operations whose bodies are in the header -/

/-- Type `FeatureType` (`xgboost/data.h`): whether a feature is numerical or
categorical. -/
inductive FeatureType where
  | numerical
  | categorical
deriving DecidableEq

/-- Modelled from the spec: `common::IsCatOp` (`categorical.h`, not under
`src/`) — the single "is this column categorical" flag test. -/
def isCat (f : FeatureType) : Bool := f == FeatureType.categorical

/-- Which physical backing array a reference denotes: `entries_a_` or
`entries_b_`. -/
inductive BufId where
  | bufA
  | bufB
deriving DecidableEq

/-- Accessor `SketchContainer::Current` (lines 60-66), at the level of buffer
identity: if `current_buffer_` is true it returns `entries_a_`,
otherwise `entries_b_`. -/
def currentId (current_buffer : Bool) : BufId :=
  if current_buffer then BufId.bufA else BufId.bufB

/-- Accessor `SketchContainer::Other` (lines 67-73): if `current_buffer_` is false it
returns `entries_a_`, otherwise `entries_b_`. -/
def otherId (current_buffer : Bool) : BufId :=
  if !current_buffer then BufId.bufA else BufId.bufB

/-- Function `SketchContainer::Alternate` (lines 80-82): flip the buffer-role flag. -/
def alternateFlag (current_buffer : Bool) : Bool := !current_buffer

/-- The private state of `SketchContainer` (quantile.cuh lines 42-58):
double-buffered flat entry storage, CSC column offsets, configuration
scalars and the categorical flag. -/
structure SketchState where
  num_rows : ℕ
  num_columns : ℕ
  num_bins : ℤ
  device : ℤ
  entries_a : List SketchEntry
  entries_b : List SketchEntry
  current_buffer : Bool
  columns_ptr : List ℕ
  columns_ptr_b : List ℕ
  feature_types : List FeatureType
  has_categorical : Bool
deriving DecidableEq

/-- Contents of the buffer `Current()` denotes. -/
def currentEntries (s : SketchState) : List SketchEntry :=
  if s.current_buffer then s.entries_a else s.entries_b

/-- Contents of the buffer `Other()` denotes. -/
def otherEntries (s : SketchState) : List SketchEntry :=
  if !s.current_buffer then s.entries_a else s.entries_b

/-- The `SketchContainer` constructor (lines 100-126).  `CHECK_GE(device, 0)`
aborts the process, modelled as `none`; `has_categorical_` is set to
"feature-types array non-empty and some feature categorical"; both column
pointers get `num_columns + 1` zero slots; the entry buffers start empty and
`current_buffer_` starts `true`. -/
def sketchContainerInit (feature_types : List FeatureType) (max_bin : ℤ)
    (num_columns num_rows : ℕ) (device : ℤ) : Option SketchState :=
  if 0 ≤ device then
    some
      { num_rows := num_rows
        num_columns := num_columns
        num_bins := max_bin
        device := device
        entries_a := []
        entries_b := []
        current_buffer := true
        columns_ptr := List.replicate (num_columns + 1) 0
        columns_ptr_b := List.replicate (num_columns + 1) 0
        feature_types := feature_types
        has_categorical := !feature_types.isEmpty && feature_types.any isCat }
  else none

/-- Slice a flat entry buffer into its per-column segments, given the CSC
offset list (`columns_ptr`): column `i` is `es[ptr i ... ptr (i+1))`. -/
def segments (ptr : List ℕ) (es : List SketchEntry) : List (List SketchEntry) :=
  match ptr with
  | [] => []
  | [_] => []
  | p0 :: p1 :: rest => ((es.drop p0).take (p1 - p0)) :: segments (p1 :: rest) es

/-- Rebuild a CSC offset list from per-column lengths, starting at `acc`:
`offsets 0 [l₁, l₂] = [0, l₁, l₁ + l₂]`. -/
def offsets (acc : ℕ) : List ℕ → List ℕ
  | [] => [acc]
  | n :: ns => acc :: offsets (acc + n) ns

/-- Operation `SketchContainer::Unique` (lines 180-204), with the default
`key_comp = thrust::equal_to<size_t>` so entries of different columns are
never collapsed.  `CHECK_EQ(d_column_scan.size(), num_columns_ + 1)` aborts
the process (`none`).  `dh::SegmentedUnique` writes its compacted output
over the input span (`entries.data()` is passed as both value input and
value output), the compacted per-column counts become the new
`columns_ptr_`, and the *current* buffer is resized to the number of
uniques, which is returned.  No buffer flip happens. -/
def uniqueOp (s : SketchState) : Option (SketchState × ℕ) :=
  if s.columns_ptr.length = s.num_columns + 1 then
    let newCols := (segments s.columns_ptr (currentEntries s)).map sketchUniqueCol
    let compacted := newCols.flatten
    some
      ({ s with
          columns_ptr := offsets 0 (newCols.map List.length)
          entries_a := if s.current_buffer then compacted else s.entries_a
          entries_b := if s.current_buffer then s.entries_b else compacted },
        compacted.length)
  else none

/-! ## Spec-modelled operation bodies (`quantile.cu` is not under `src/`) -/

/-- Modelled from the spec: the duplicate-accumulation scan of Ingestion
(`SketchContainer::ScanInput` / `Push`, bodies in `quantile.cu`, not under
`src/`): within one column's sorted run of raw `(value, weight)` samples,
adjacent samples with equal value are collapsed into one sample carrying the
accumulated weight, so only distinct values survive. -/
def dedupAccum : List (ℚ × ℚ) → List (ℚ × ℚ)
  | [] => []
  | [x] => [x]
  | x :: y :: xs =>
    if x.1 = y.1 then dedupAccum ((x.1, x.2 + y.2) :: xs)
    else x :: dedupAccum (y :: xs)
termination_by l => l.length

/-- Modelled from the spec: the rank-assignment scan of Ingestion: each
surviving distinct value receives `rank_min`/`rank_max`/`weight_min` from a
running prefix sum of the accumulated weights; `acc` is the weight mass
strictly below the current value. -/
def assignRanks (acc : ℚ) : List (ℚ × ℚ) → List SketchEntry
  | [] => []
  | (v, w) :: xs => ⟨v, acc, acc + w, w⟩ :: assignRanks (acc + w) xs

/-- Modelled from the spec: Ingestion of one column (`SketchContainer::Push`,
body in `quantile.cu`, not under `src/`): duplicate accumulation followed by
rank assignment from the weight prefix sum. -/
def pushColumn (raw : List (ℚ × ℚ)) : List SketchEntry :=
  assignRanks 0 (dedupAccum raw)

/-- Modelled from the spec: `SketchContainer::Push` at container level (body
in `quantile.cu`, not under `src/`).  Per spec §4.1/§7 it fails fatally
(`none`) when the provided column layout disagrees with the container's
configured column count; otherwise the ingested per-column entries occupy
the "other" buffer and the buffer role flips. -/
def pushOp (s : SketchState) (in_ptr : List ℕ) (cols : List (List (ℚ × ℚ))) :
    Option SketchState :=
  if in_ptr.length = s.num_columns + 1 then
    let newCols := cols.map pushColumn
    let flat := newCols.flatten
    some
      { s with
          entries_a := if s.current_buffer then s.entries_a else flat
          entries_b := if s.current_buffer then flat else s.entries_b
          current_buffer := !s.current_buffer
          columns_ptr := offsets 0 (newCols.map List.length) }
  else none

/-- Modelled from the spec: the classical two-pointer summary merge of
`SketchContainer::Merge` (body in `quantile.cu`, not under `src/`; spec §4.3
"classical two-sorted-sequence merge by value", rank offsets named
`RMinNext`/`RMaxPrev` in the source's `FixError` comment).  `aprev`/`bprev`
are the running `RMinNext` of the last consumed entry of each input (0
before any), `armax`/`brmax` the last `rank_max` of each original input,
used once an input is exhausted. -/
def setCombineAux : List SketchEntry → List SketchEntry → ℚ → ℚ → ℚ → ℚ →
    List SketchEntry
  | [], [], _, _, _, _ => []
  | x :: xs, [], _aprev, bprev, armax, brmax =>
    ⟨x.value, bprev + x.rmin, brmax + x.rmax, x.wmin⟩ ::
      setCombineAux xs [] (RMinNext x) bprev armax brmax
  | [], y :: ys, aprev, _bprev, armax, brmax =>
    ⟨y.value, aprev + y.rmin, armax + y.rmax, y.wmin⟩ ::
      setCombineAux [] ys aprev (RMinNext y) armax brmax
  | x :: xs, y :: ys, aprev, bprev, armax, brmax =>
    if x.value < y.value then
      ⟨x.value, bprev + x.rmin, x.rmax + RMaxPrev y, x.wmin⟩ ::
        setCombineAux xs (y :: ys) (RMinNext x) bprev armax brmax
    else if y.value < x.value then
      ⟨y.value, aprev + y.rmin, y.rmax + RMaxPrev x, y.wmin⟩ ::
        setCombineAux (x :: xs) ys aprev (RMinNext y) armax brmax
    else
      ⟨x.value, x.rmin + y.rmin, x.rmax + y.rmax, x.wmin + y.wmin⟩ ::
        setCombineAux xs ys (RMinNext x) (RMinNext y) armax brmax
termination_by a b _ _ _ _ => a.length + b.length

/-- Value of `rank_max` at the last entry of a summary (0 when empty). -/
def lastRmax (l : List SketchEntry) : ℚ := (l.getLastD ⟨0, 0, 0, 0⟩).rmax

/-- Modelled from the spec: merge of one column's two summaries; an empty
input is answered by the other summary unchanged. -/
def setCombine (a b : List SketchEntry) : List SketchEntry :=
  match a, b with
  | [], b => b
  | a, [] => a
  | a, b => setCombineAux a b 0 0 (lastRmax a) (lastRmax b)

/-! ## Spec-modelled pruning -/

/-- Modelled from the spec: the effective rank of an entry used by Prune,
the `rank_min`/`rank_max` midpoint (spec §4.2). -/
def midRank (e : SketchEntry) : ℚ := (e.rmin + e.rmax) / 2

/-- Modelled from the spec: nearest-rank lookup via (the result of) binary
search over the midpoint ranks: the first index whose midpoint rank reaches
the requested rank, the last index if none does.  The spec leaves the exact
tie rule open (§9); this model deterministically prefers the lower index. -/
def nearestRankIdx (l : List SketchEntry) (r : ℚ) : ℕ :=
  match l.findIdx? (fun e => r ≤ midRank e) with
  | some i => i
  | none => l.length - 1

/-- Modelled from the spec: the indices Prune keeps for a column of `n > to`
entries: the two boundary entries (indices `0` and `n - 1`) plus `to - 2`
interior entries found by nearest-rank lookup at evenly spaced rank
positions (spec §4.2). -/
def pruneCandidates (tgt : ℕ) (l : List SketchEntry) : List ℕ :=
  let lo := midRank (l.headD ⟨0, 0, 0, 0⟩)
  let range := midRank (l.getLastD ⟨0, 0, 0, 0⟩) - lo
  0 :: (l.length - 1) ::
    (List.range (tgt - 2)).map
      (fun k : ℕ => nearestRankIdx l
        (lo + (((k + 1 : ℕ) : ℚ)) * range / ((tgt : ℚ) - 1)))

/-- Modelled from the spec: `SketchContainer::Prune` on one column (body in
`quantile.cu`, not under `src/`): no-op when the column already has at most
`to` entries, otherwise keep exactly the candidate entries, in their
original order. -/
def pruneColumn (tgt : ℕ) (l : List SketchEntry) : List SketchEntry :=
  if l.length ≤ tgt then l
  else ((l.enum.filter (fun p => p.1 ∈ pruneCandidates tgt l)).map Prod.snd)

/-! ## Summary validity invariants -/

/-- Validity of a single entry: non-negative rank lower bound and weight,
and `rank_max` at least `rank_min + weight_min` (the entry invariant of the
classical weighted-quantile summary). -/
def EValid (e : SketchEntry) : Prop :=
  0 ≤ e.rmin ∧ 0 ≤ e.wmin ∧ e.rmin + e.wmin ≤ e.rmax

/-- The between-entry invariant of a summary, in value order: strictly
increasing values, `rank_min` at least the predecessor's `RMinNext` and
`rank_max` at least the predecessor's `rank_max` plus the own weight. -/
def Rel (u w : SketchEntry) : Prop :=
  u.value < w.value ∧ u.rmin + u.wmin ≤ w.rmin ∧ u.rmax + w.wmin ≤ w.rmax

/-- Validity of a whole per-column summary (adjacent-entry form). -/
def SValid (l : List SketchEntry) : Prop :=
  (∀ e ∈ l, EValid e) ∧ l.Chain' Rel

/-- Validity of a whole per-column summary (pairwise form, stable under
taking subsequences). -/
def SummaryValid (l : List SketchEntry) : Prop :=
  (∀ e ∈ l, EValid e) ∧ l.Pairwise Rel

/-- The invariant claimed by the specification: every entry has
`rank_min ≤ rank_max`, and value, `rank_min` and `rank_max` are all
non-decreasing along the column. -/
def ClaimInv (l : List SketchEntry) : Prop :=
  (∀ e ∈ l, e.rmin ≤ e.rmax) ∧
    l.Pairwise (fun u w => u.value ≤ w.value ∧ u.rmin ≤ w.rmin ∧ u.rmax ≤ w.rmax)

instance : DecidablePred EValid := fun e => by unfold EValid; infer_instance

instance : ∀ u w, Decidable (Rel u w) := fun u w => by unfold Rel; infer_instance

instance : DecidablePred SummaryValid := fun l => by
  unfold SummaryValid; infer_instance

instance : DecidablePred ClaimInv := fun l => by unfold ClaimInv; infer_instance

theorem sValid_nil : SValid [] := ⟨by simp, List.chain'_nil⟩

theorem sValid_cons {x : SketchEntry} {xs : List SketchEntry} :
    SValid (x :: xs) ↔
      EValid x ∧ (∀ z ∈ xs.head?, Rel x z) ∧ SValid xs := by
  unfold SValid
  rw [List.chain'_cons']
  constructor
  · rintro ⟨hv, hc, htl⟩
    exact ⟨hv x (by simp), hc, fun e he => hv e (by simp [he]), htl⟩
  · rintro ⟨hx, hc, hv, htl⟩
    refine ⟨?_, hc, htl⟩
    intro e he
    rcases List.mem_cons.mp he with h | h
    · exact h ▸ hx
    · exact hv e h

/-- Relation `Rel` is transitive through a valid middle entry. -/
theorem rel_trans_of_valid {x y z : SketchEntry} (hy : EValid y)
    (hxy : Rel x y) (hyz : Rel y z) : Rel x z := by
  obtain ⟨_, hw, _⟩ := hy
  obtain ⟨v1, m1, x1⟩ := hxy
  obtain ⟨v2, m2, x2⟩ := hyz
  exact ⟨lt_trans v1 v2, by linarith, by linarith⟩

theorem svalid_head_rel {x : SketchEntry} {xs : List SketchEntry}
    (h : SValid (x :: xs)) : ∀ e ∈ xs, Rel x e := by
  induction xs generalizing x with
  | nil => simp
  | cons y ys ih =>
    rcases (sValid_cons.mp h) with ⟨hx, hc, htl⟩
    have hxy : Rel x y := hc y (by simp)
    intro e he
    rcases List.mem_cons.mp he with h' | h'
    · exact h' ▸ hxy
    · have hy : EValid y := ((sValid_cons.mp htl)).1
      exact rel_trans_of_valid hy hxy (ih htl e h')

theorem svalid_pairwise {l : List SketchEntry} (h : SValid l) :
    SummaryValid l := by
  refine ⟨h.1, ?_⟩
  induction l with
  | nil => simp
  | cons x xs ih =>
    rcases (sValid_cons.mp h) with ⟨_, _, htl⟩
    exact List.pairwise_cons.mpr ⟨svalid_head_rel h, ih htl⟩

theorem summaryValid_svalid {l : List SketchEntry} (h : SummaryValid l) :
    SValid l := ⟨h.1, h.2.chain'⟩

/-- A subsequence of a valid summary is a valid summary. -/
theorem summaryValid_sublist {l l' : List SketchEntry}
    (hs : l'.Sublist l) (h : SummaryValid l) : SummaryValid l' :=
  ⟨fun e he => h.1 e (hs.mem he), h.2.sublist hs⟩

/-- The spec's claimed invariant follows from summary validity. -/
theorem claimInv_of_summaryValid {l : List SketchEntry}
    (h : SummaryValid l) : ClaimInv l := by
  obtain ⟨hv, hp⟩ := h
  constructor
  · intro e he
    obtain ⟨h0, hw, hm⟩ := hv e he
    linarith
  · refine hp.imp_of_mem ?_
    intro u w hu hw' hr
    obtain ⟨hv1, hw1, hm1⟩ := hv u hu
    obtain ⟨hv2, hw2, hm2⟩ := hv w hw'
    obtain ⟨r1, r2, r3⟩ := hr
    exact ⟨le_of_lt r1, by linarith, by linarith⟩

/-! ## Correctness of the two-pointer merge -/

/-- Upper bound still contributable by a summary suffix: `RMaxPrev` of its
head, or the recorded last `rank_max` once the suffix is exhausted. -/
def resid (l : List SketchEntry) (tailmax : ℚ) : ℚ :=
  match l with
  | [] => tailmax
  | x :: _ => x.rmax - x.wmin

/-- Invariants tying the running merge state to the remaining suffixes. -/
def CombCtx (a b : List SketchEntry) (aprev bprev armax brmax : ℚ) : Prop :=
  SValid a ∧ SValid b ∧
    0 ≤ aprev ∧ 0 ≤ bprev ∧
    (∀ x ∈ a.head?, aprev ≤ x.rmin) ∧
    (∀ y ∈ b.head?, bprev ≤ y.rmin) ∧
    (a = [] → aprev ≤ armax) ∧
    (b = [] → bprev ≤ brmax) ∧
    (∀ x ∈ a.getLast?, x.rmax = armax) ∧
    (∀ y ∈ b.getLast?, y.rmax = brmax)

/-- Invariants tying the previously emitted entry to the merge state. -/
def PrevOk (p : SketchEntry) (a b : List SketchEntry)
    (aprev bprev armax brmax : ℚ) : Prop :=
  p.rmin + p.wmin ≤ aprev + bprev ∧
    (∀ x ∈ a.head?, p.value < x.value ∧
      p.rmax + x.wmin ≤ x.rmax + resid b brmax) ∧
    (∀ y ∈ b.head?, p.value < y.value ∧
      p.rmax + y.wmin ≤ y.rmax + resid a armax)

/-- Conclusion of the merge induction: all emitted entries are valid, they
are chained by `Rel`, and any previously emitted entry admissible for the
state is chained to the first emitted one. -/
def CombOut (a b : List SketchEntry) (aprev bprev armax brmax : ℚ) : Prop :=
  (∀ e ∈ setCombineAux a b aprev bprev armax brmax, EValid e) ∧
    (setCombineAux a b aprev bprev armax brmax).Chain' Rel ∧
    ∀ p, PrevOk p a b aprev bprev armax brmax →
      ∀ e ∈ (setCombineAux a b aprev bprev armax brmax).head?, Rel p e

theorem mem_getLast?_cons {z x : SketchEntry} {xs : List SketchEntry}
    (h : z ∈ xs.getLast?) : z ∈ (x :: xs).getLast? := by
  cases xs with
  | nil => simp at h
  | cons b l => rwa [List.getLast?_cons_cons]

theorem combineAux_valid (a b : List SketchEntry)
    (aprev bprev armax brmax : ℚ) :
    CombCtx a b aprev bprev armax brmax →
      CombOut a b aprev bprev armax brmax := by
  induction a, b, aprev, bprev, armax, brmax using setCombineAux.induct with
  | case1 aprev bprev armax brmax =>
    intro _
    refine ⟨by simp [setCombineAux], by simp [setCombineAux], ?_⟩
    intro p _ e he
    simp [setCombineAux] at he
  | case2 x xs aprev bprev armax brmax ih =>
    rintro ⟨hva, -, hap, hbp, hha, -, -, heb, hla, -⟩
    obtain ⟨hx, hcx, hxs⟩ := sValid_cons.mp hva
    obtain ⟨hx0, hxw, hxm⟩ := hx
    have hax : aprev ≤ x.rmin := hha x (by simp)
    have hbB : bprev ≤ brmax := heb rfl
    have hlast : xs = [] → x.rmax = armax := by
      intro h; subst h; exact hla x (by simp)
    have hctx' : CombCtx xs [] (RMinNext x) bprev armax brmax := by
      refine ⟨hxs, sValid_nil, ?_, hbp, ?_, by simp, ?_, fun _ => hbB, ?_, by simp⟩
      · unfold RMinNext; linarith
      · intro z hz
        have := (hcx z hz).2.1
        unfold RMinNext; linarith
      · intro h
        have := hlast h
        unfold RMinNext; linarith
      · intro z hz; exact hla z (mem_getLast?_cons hz)
    obtain ⟨ihv, ihc, ihp⟩ := ih hctx'
    have hpok : PrevOk ⟨x.value, bprev + x.rmin, brmax + x.rmax, x.wmin⟩
        xs [] (RMinNext x) bprev armax brmax := by
      refine ⟨by unfold RMinNext; simp; linarith, ?_, by simp⟩
      intro z hz
      obtain ⟨hv1, hv2, hv3⟩ := hcx z hz
      exact ⟨hv1, by simp [resid]; linarith⟩
    refine ⟨?_, ?_, ?_⟩
    · intro e he
      simp only [setCombineAux, List.mem_cons] at he
      rcases he with h | h
      · subst h
        exact ⟨by simp; linarith, by simpa using hxw, by simp; linarith⟩
      · exact ihv e h
    · simp only [setCombineAux]
      exact List.chain'_cons'.mpr ⟨ihp _ hpok, ihc⟩
    · intro p hp e he
      simp only [setCombineAux, List.head?_cons, Option.mem_some_iff] at he
      subst he
      obtain ⟨hp1, hp2, -⟩ := hp
      obtain ⟨hq1, hq2⟩ := hp2 x (by simp)
      simp only [resid] at hq2
      exact ⟨hq1, by simp; linarith, by simp; linarith⟩
  | case3 y ys aprev bprev armax brmax ih =>
    rintro ⟨-, hvb, hap, hbp, -, hhb, hea, -, -, hlb⟩
    obtain ⟨hy, hcy, hys⟩ := sValid_cons.mp hvb
    obtain ⟨hy0, hyw, hym⟩ := hy
    have hby : bprev ≤ y.rmin := hhb y (by simp)
    have haA : aprev ≤ armax := hea rfl
    have hlast : ys = [] → y.rmax = brmax := by
      intro h; subst h; exact hlb y (by simp)
    have hctx' : CombCtx [] ys aprev (RMinNext y) armax brmax := by
      refine ⟨sValid_nil, hys, hap, ?_, by simp, ?_, fun _ => haA, ?_, by simp, ?_⟩
      · unfold RMinNext; linarith
      · intro z hz
        have := (hcy z hz).2.1
        unfold RMinNext; linarith
      · intro h
        have := hlast h
        unfold RMinNext; linarith
      · intro z hz; exact hlb z (mem_getLast?_cons hz)
    obtain ⟨ihv, ihc, ihp⟩ := ih hctx'
    have hpok : PrevOk ⟨y.value, aprev + y.rmin, armax + y.rmax, y.wmin⟩
        [] ys aprev (RMinNext y) armax brmax := by
      refine ⟨by unfold RMinNext; simp; linarith, by simp, ?_⟩
      intro z hz
      obtain ⟨hv1, hv2, hv3⟩ := hcy z hz
      exact ⟨hv1, by simp [resid]; linarith⟩
    refine ⟨?_, ?_, ?_⟩
    · intro e he
      simp only [setCombineAux, List.mem_cons] at he
      rcases he with h | h
      · subst h
        exact ⟨by simp; linarith, by simpa using hyw, by simp; linarith⟩
      · exact ihv e h
    · simp only [setCombineAux]
      exact List.chain'_cons'.mpr ⟨ihp _ hpok, ihc⟩
    · intro p hp e he
      simp only [setCombineAux, List.head?_cons, Option.mem_some_iff] at he
      subst he
      obtain ⟨hp1, -, hp3⟩ := hp
      obtain ⟨hq1, hq2⟩ := hp3 y (by simp)
      simp only [resid] at hq2
      exact ⟨hq1, by simp; linarith, by simp; linarith⟩
  | case4 x xs y ys aprev bprev armax brmax hxy ih =>
    rintro ⟨hva, hvb, hap, hbp, hha, hhb, -, -, hla, hlb⟩
    obtain ⟨hx, hcx, hxs⟩ := sValid_cons.mp hva
    obtain ⟨hx0, hxw, hxm⟩ := hx
    obtain ⟨hy, hcy, hys⟩ := sValid_cons.mp hvb
    obtain ⟨hy0, hyw, hym⟩ := hy
    have hax : aprev ≤ x.rmin := hha x (by simp)
    have hby : bprev ≤ y.rmin := hhb y (by simp)
    have hlastx : xs = [] → x.rmax = armax := by
      intro h; subst h; exact hla x (by simp)
    have hresx : x.rmax ≤ resid xs armax := by
      cases xs with
      | nil => simp [resid, hlastx rfl]
      | cons z zs =>
        have := (hcx z (by simp)).2.2
        simp [resid]; linarith
    have hctx' : CombCtx xs (y :: ys) (RMinNext x) bprev armax brmax := by
      refine ⟨hxs, hvb, ?_, hbp, ?_, hhb, ?_, by simp, ?_, hlb⟩
      · unfold RMinNext; linarith
      · intro z hz
        have := (hcx z hz).2.1
        unfold RMinNext; linarith
      · intro h
        have := hlastx h
        unfold RMinNext; linarith
      · intro z hz; exact hla z (mem_getLast?_cons hz)
    obtain ⟨ihv, ihc, ihp⟩ := ih hctx'
    have hpok : PrevOk ⟨x.value, bprev + x.rmin, x.rmax + RMaxPrev y, x.wmin⟩
        xs (y :: ys) (RMinNext x) bprev armax brmax := by
      refine ⟨by unfold RMinNext; simp; linarith, ?_, ?_⟩
      · intro z hz
        obtain ⟨hv1, hv2, hv3⟩ := hcx z hz
        exact ⟨hv1, by simp [resid, RMaxPrev]; linarith⟩
      · intro z hz
        simp only [List.head?_cons, Option.mem_some_iff] at hz
        subst hz
        refine ⟨by simpa using hxy, ?_⟩
        simp [RMaxPrev]; linarith
    refine ⟨?_, ?_, ?_⟩
    · intro e he
      simp only [setCombineAux, if_pos hxy, List.mem_cons] at he
      rcases he with h | h
      · subst h
        refine ⟨by simp; linarith, by simpa using hxw, ?_⟩
        simp [RMaxPrev]; linarith
      · exact ihv e h
    · simp only [setCombineAux, if_pos hxy]
      exact List.chain'_cons'.mpr ⟨ihp _ hpok, ihc⟩
    · intro p hp e he
      simp only [setCombineAux, if_pos hxy, List.head?_cons,
        Option.mem_some_iff] at he
      subst he
      obtain ⟨hp1, hp2, -⟩ := hp
      obtain ⟨hq1, hq2⟩ := hp2 x (by simp)
      simp only [resid] at hq2
      refine ⟨hq1, by simp; linarith, ?_⟩
      simp [RMaxPrev]; linarith
  | case5 x xs y ys aprev bprev armax brmax hxy hyx ih =>
    rintro ⟨hva, hvb, hap, hbp, hha, hhb, -, -, hla, hlb⟩
    obtain ⟨hx, hcx, hxs⟩ := sValid_cons.mp hva
    obtain ⟨hx0, hxw, hxm⟩ := hx
    obtain ⟨hy, hcy, hys⟩ := sValid_cons.mp hvb
    obtain ⟨hy0, hyw, hym⟩ := hy
    have hax : aprev ≤ x.rmin := hha x (by simp)
    have hby : bprev ≤ y.rmin := hhb y (by simp)
    have hlasty : ys = [] → y.rmax = brmax := by
      intro h; subst h; exact hlb y (by simp)
    have hresy : y.rmax ≤ resid ys brmax := by
      cases ys with
      | nil => simp [resid, hlasty rfl]
      | cons z zs =>
        have := (hcy z (by simp)).2.2
        simp [resid]; linarith
    have hctx' : CombCtx (x :: xs) ys aprev (RMinNext y) armax brmax := by
      refine ⟨hva, hys, hap, ?_, hha, ?_, by simp, ?_, hla, ?_⟩
      · unfold RMinNext; linarith
      · intro z hz
        have := (hcy z hz).2.1
        unfold RMinNext; linarith
      · intro h
        have := hlasty h
        unfold RMinNext; linarith
      · intro z hz; exact hlb z (mem_getLast?_cons hz)
    obtain ⟨ihv, ihc, ihp⟩ := ih hctx'
    have hpok : PrevOk ⟨y.value, aprev + y.rmin, y.rmax + RMaxPrev x, y.wmin⟩
        (x :: xs) ys aprev (RMinNext y) armax brmax := by
      refine ⟨by unfold RMinNext; simp; linarith, ?_, ?_⟩
      · intro z hz
        simp only [List.head?_cons, Option.mem_some_iff] at hz
        subst hz
        refine ⟨by simpa using hyx, ?_⟩
        simp [RMaxPrev]; linarith
      · intro z hz
        obtain ⟨hv1, hv2, hv3⟩ := hcy z hz
        exact ⟨hv1, by simp [resid, RMaxPrev]; linarith⟩
    refine ⟨?_, ?_, ?_⟩
    · intro e he
      simp only [setCombineAux, if_neg hxy, if_pos hyx, List.mem_cons] at he
      rcases he with h | h
      · subst h
        refine ⟨by simp; linarith, by simpa using hyw, ?_⟩
        simp [RMaxPrev]; linarith
      · exact ihv e h
    · simp only [setCombineAux, if_neg hxy, if_pos hyx]
      exact List.chain'_cons'.mpr ⟨ihp _ hpok, ihc⟩
    · intro p hp e he
      simp only [setCombineAux, if_neg hxy, if_pos hyx, List.head?_cons,
        Option.mem_some_iff] at he
      subst he
      obtain ⟨hp1, -, hp3⟩ := hp
      obtain ⟨hq1, hq2⟩ := hp3 y (by simp)
      simp only [resid] at hq2
      refine ⟨hq1, by simp; linarith, ?_⟩
      simp [RMaxPrev]; linarith
  | case6 x xs y ys aprev bprev armax brmax hxy hyx ih =>
    rintro ⟨hva, hvb, hap, hbp, hha, hhb, -, -, hla, hlb⟩
    obtain ⟨hx, hcx, hxs⟩ := sValid_cons.mp hva
    obtain ⟨hx0, hxw, hxm⟩ := hx
    obtain ⟨hy, hcy, hys⟩ := sValid_cons.mp hvb
    obtain ⟨hy0, hyw, hym⟩ := hy
    have hax : aprev ≤ x.rmin := hha x (by simp)
    have hby : bprev ≤ y.rmin := hhb y (by simp)
    have hveq : x.value = y.value := le_antisymm (not_lt.mp hyx) (not_lt.mp hxy)
    have hlastx : xs = [] → x.rmax = armax := by
      intro h; subst h; exact hla x (by simp)
    have hlasty : ys = [] → y.rmax = brmax := by
      intro h; subst h; exact hlb y (by simp)
    have hresx : x.rmax ≤ resid xs armax := by
      cases xs with
      | nil => simp [resid, hlastx rfl]
      | cons z zs =>
        have := (hcx z (by simp)).2.2
        simp [resid]; linarith
    have hresy : y.rmax ≤ resid ys brmax := by
      cases ys with
      | nil => simp [resid, hlasty rfl]
      | cons z zs =>
        have := (hcy z (by simp)).2.2
        simp [resid]; linarith
    have hctx' : CombCtx xs ys (RMinNext x) (RMinNext y) armax brmax := by
      refine ⟨hxs, hys, ?_, ?_, ?_, ?_, ?_, ?_, ?_, ?_⟩
      · unfold RMinNext; linarith
      · unfold RMinNext; linarith
      · intro z hz
        have := (hcx z hz).2.1
        unfold RMinNext; linarith
      · intro z hz
        have := (hcy z hz).2.1
        unfold RMinNext; linarith
      · intro h
        have := hlastx h
        unfold RMinNext; linarith
      · intro h
        have := hlasty h
        unfold RMinNext; linarith
      · intro z hz; exact hla z (mem_getLast?_cons hz)
      · intro z hz; exact hlb z (mem_getLast?_cons hz)
    obtain ⟨ihv, ihc, ihp⟩ := ih hctx'
    have hpok : PrevOk
        ⟨x.value, x.rmin + y.rmin, x.rmax + y.rmax, x.wmin + y.wmin⟩
        xs ys (RMinNext x) (RMinNext y) armax brmax := by
      refine ⟨by unfold RMinNext; simp; linarith, ?_, ?_⟩
      · intro z hz
        obtain ⟨hv1, hv2, hv3⟩ := hcx z hz
        exact ⟨hv1, by simp; linarith⟩
      · intro z hz
        obtain ⟨hv1, hv2, hv3⟩ := hcy z hz
        refine ⟨hveq ▸ hv1, by simp; linarith⟩
    refine ⟨?_, ?_, ?_⟩
    · intro e he
      simp only [setCombineAux, if_neg hxy, if_neg hyx, List.mem_cons] at he
      rcases he with h | h
      · subst h
        exact ⟨by simp; linarith, by simp; linarith, by simp; linarith⟩
      · exact ihv e h
    · simp only [setCombineAux, if_neg hxy, if_neg hyx]
      exact List.chain'_cons'.mpr ⟨ihp _ hpok, ihc⟩
    · intro p hp e he
      simp only [setCombineAux, if_neg hxy, if_neg hyx, List.head?_cons,
        Option.mem_some_iff] at he
      subst he
      obtain ⟨hp1, hp2, -⟩ := hp
      obtain ⟨hq1, hq2⟩ := hp2 x (by simp)
      simp only [resid] at hq2
      exact ⟨hq1, by simp; linarith, by simp; linarith⟩

theorem lastRmax_of_getLast? {l : List SketchEntry} {z : SketchEntry}
    (h : z ∈ l.getLast?) : z.rmax = lastRmax l := by
  unfold lastRmax
  rw [List.getLastD_eq_getLast?, Option.mem_def.mp h, Option.getD_some]

/-- Merging two valid summaries yields a valid summary. -/
theorem setCombine_valid {a b : List SketchEntry}
    (ha : SummaryValid a) (hb : SummaryValid b) :
    SummaryValid (setCombine a b) := by
  cases a with
  | nil => simpa [setCombine] using hb
  | cons x xs =>
    cases b with
    | nil => simpa [setCombine] using ha
    | cons y ys =>
      have hctx : CombCtx (x :: xs) (y :: ys) 0 0
          (lastRmax (x :: xs)) (lastRmax (y :: ys)) := by
        refine ⟨summaryValid_svalid ha, summaryValid_svalid hb, le_refl 0,
          le_refl 0, ?_, ?_, by simp, by simp, ?_, ?_⟩
        · intro z hz
          simp only [List.head?_cons, Option.mem_some_iff] at hz
          exact hz ▸ (ha.1 x (by simp)).1
        · intro z hz
          simp only [List.head?_cons, Option.mem_some_iff] at hz
          exact hz ▸ (hb.1 y (by simp)).1
        · intro z hz; exact lastRmax_of_getLast? hz
        · intro z hz; exact lastRmax_of_getLast? hz
      obtain ⟨hv, hc, -⟩ := combineAux_valid _ _ _ _ _ _ hctx
      exact svalid_pairwise ⟨hv, hc⟩

/-! ## Correctness of ingestion -/

theorem dedupAccum_head :
    ∀ (l : List (ℚ × ℚ)) (x : ℚ × ℚ) (xs : List (ℚ × ℚ)), l = x :: xs →
      ∃ w rest, dedupAccum l = (x.1, w) :: rest := by
  intro l
  induction l using dedupAccum.induct with
  | case1 => intro x xs h; simp at h
  | case2 p =>
    intro x xs h
    injection h with h1 h2
    subst h1
    exact ⟨p.2, [], by simp [dedupAccum]⟩
  | case3 p q ys heq ih =>
    intro x xs h
    injection h with h1 h2
    subst h1
    obtain ⟨w, rest, hw⟩ := ih (p.1, p.2 + q.2) ys rfl
    exact ⟨w, rest, by simp only [dedupAccum, if_pos heq]; rw [hw]⟩
  | case4 p q ys hne ih =>
    intro x xs h
    injection h with h1 h2
    subst h1
    exact ⟨p.2, dedupAccum (q :: ys), by simp only [dedupAccum, if_neg hne]⟩

theorem dedupAccum_sorted :
    ∀ (l : List (ℚ × ℚ)), l.Chain' (fun p q => p.1 ≤ q.1) →
      (dedupAccum l).Chain' (fun p q => p.1 < q.1) := by
  intro l
  induction l using dedupAccum.induct with
  | case1 => simp [dedupAccum]
  | case2 x => simp [dedupAccum]
  | case3 x y xs heq ih =>
    intro hc
    rw [List.chain'_cons'] at hc
    obtain ⟨-, hc⟩ := hc
    rw [List.chain'_cons'] at hc
    obtain ⟨hh, hc⟩ := hc
    simp only [dedupAccum, if_pos heq]
    exact ih (List.chain'_cons'.mpr ⟨by simpa [heq] using hh, hc⟩)
  | case4 x y xs hne ih =>
    intro hc
    rw [List.chain'_cons'] at hc
    obtain ⟨hh, hc⟩ := hc
    have hxy : x.1 ≤ y.1 := hh y (by simp)
    simp only [dedupAccum, if_neg hne]
    rw [List.chain'_cons']
    refine ⟨?_, ih hc⟩
    intro z hz
    obtain ⟨w, rest, hw⟩ := dedupAccum_head (y :: xs) y xs rfl
    rw [hw] at hz
    simp only [List.head?_cons, Option.mem_some_iff] at hz
    subst hz
    exact lt_of_le_of_ne hxy hne

theorem dedupAccum_wnonneg :
    ∀ (l : List (ℚ × ℚ)), (∀ p ∈ l, 0 ≤ p.2) →
      ∀ p ∈ dedupAccum l, 0 ≤ p.2 := by
  intro l
  induction l using dedupAccum.induct with
  | case1 => simp [dedupAccum]
  | case2 x => simp [dedupAccum]
  | case3 x y xs heq ih =>
    intro hw
    simp only [dedupAccum, if_pos heq]
    refine ih ?_
    intro p hp
    rcases List.mem_cons.mp hp with h | h
    · subst h
      have h1 := hw x (by simp)
      have h2 := hw y (by simp)
      simpa using add_nonneg h1 h2
    · exact hw p (by simp [h])
  | case4 x y xs hne ih =>
    intro hw
    simp only [dedupAccum, if_neg hne]
    intro p hp
    rcases List.mem_cons.mp hp with h | h
    · exact h ▸ hw x (by simp)
    · exact ih (fun q hq => hw q (by simp [List.mem_cons.mp hq])) p h

theorem assignRanks_valid :
    ∀ (l : List (ℚ × ℚ)) (acc : ℚ), 0 ≤ acc →
      l.Chain' (fun p q => p.1 < q.1) → (∀ p ∈ l, 0 ≤ p.2) →
      SValid (assignRanks acc l) := by
  intro l
  induction l with
  | nil => intro acc _ _ _; exact sValid_nil
  | cons x xs ih =>
    intro acc hacc hc hw
    obtain ⟨v, w⟩ := x
    rw [List.chain'_cons'] at hc
    obtain ⟨hh, hc⟩ := hc
    have hw0 : (0 : ℚ) ≤ w := hw (v, w) (by simp)
    simp only [assignRanks]
    rw [sValid_cons]
    refine ⟨⟨by simpa using hacc, by simpa using hw0, by simp⟩, ?_,
      ih (acc + w) (by linarith) hc (fun p hp => hw p (by simp [hp]))⟩
    intro z hz
    cases xs with
    | nil => simp [assignRanks] at hz
    | cons y ys =>
      obtain ⟨v', w'⟩ := y
      simp only [assignRanks, List.head?_cons, Option.mem_some_iff] at hz
      subst hz
      exact ⟨by simpa using hh (v', w') (by simp), by simp, by simp⟩

/-- Ingesting a sorted, non-negatively weighted raw column yields a valid
summary. -/
theorem pushColumn_valid {raw : List (ℚ × ℚ)}
    (hs : raw.Pairwise (fun p q => p.1 ≤ q.1)) (hw : ∀ p ∈ raw, 0 ≤ p.2) :
    SummaryValid (pushColumn raw) :=
  svalid_pairwise
    (assignRanks_valid (dedupAccum raw) 0 le_rfl
      (dedupAccum_sorted raw hs.chain') (dedupAccum_wnonneg raw hw))

/-! ## Correctness of segmented unique -/

theorem sketchUniqueCol_sublist : ∀ (l : List SketchEntry),
    (sketchUniqueCol l).Sublist l := by
  intro l
  induction l using sketchUniqueCol.induct with
  | case1 => simp [sketchUniqueCol]
  | case2 x xs ih =>
    simp only [sketchUniqueCol]
    exact ((ih.trans (List.dropWhile_sublist _)).cons₂ x)

theorem sketchUniqueCol_head? : ∀ (l : List SketchEntry),
    (sketchUniqueCol l).head? = l.head? := by
  intro l
  cases l <;> simp [sketchUniqueCol]

theorem head?_dropWhile_false {p : SketchEntry → Bool} :
    ∀ (l : List SketchEntry), ∀ z ∈ (l.dropWhile p).head?, p z = false := by
  intro l
  induction l with
  | nil => simp
  | cons x xs ih =>
    by_cases hp : p x
    · simpa [List.dropWhile_cons, hp] using ih
    · simp only [List.dropWhile_cons, if_neg hp]
      intro z hz
      simp only [List.head?_cons, Option.mem_some_iff] at hz
      subst hz
      simpa using hp

/-- After `sketchUniqueCol` no two adjacent entries compare equal under
`detail::SketchUnique`. -/
theorem sketchUniqueCol_chain_ne : ∀ (l : List SketchEntry),
    (sketchUniqueCol l).Chain' (fun u w => sketchUniqueEq u w = false) := by
  intro l
  induction l using sketchUniqueCol.induct with
  | case1 => simp [sketchUniqueCol]
  | case2 x xs ih =>
    simp only [sketchUniqueCol]
    rw [List.chain'_cons']
    refine ⟨?_, ih⟩
    intro z hz
    rw [sketchUniqueCol_head?] at hz
    exact head?_dropWhile_false xs z hz

/-- The entries `sketchUniqueCol` keeps all come from the input. -/
theorem sketchUniqueCol_mem {l : List SketchEntry} {e : SketchEntry}
    (h : e ∈ sketchUniqueCol l) : e ∈ l := (sketchUniqueCol_sublist l).mem h

/-- In a value-sorted column, the representative kept for each duplicate
run is the *first* entry of the column carrying that value. -/
theorem sketchUniqueCol_keeps_first :
    ∀ (l : List SketchEntry),
      l.Pairwise (fun u w => u.value ≤ w.value) →
      ∀ e ∈ sketchUniqueCol l,
        l.find? (fun f => f.value == e.value) = some e := by
  intro l
  induction l using sketchUniqueCol.induct with
  | case1 => simp [sketchUniqueCol]
  | case2 x xs ih =>
    intro hs e he
    simp only [sketchUniqueCol, List.mem_cons] at he
    have htail := List.pairwise_cons.mp hs
    rcases he with h | h
    · subst h
      exact List.find?_cons_of_pos _ (by simp)
    · set rest := xs.dropWhile (fun y => sketchUniqueEq x y) with hrest
      have hrs : rest.Pairwise (fun u w => u.value ≤ w.value) :=
        htail.2.sublist (List.dropWhile_sublist _)
      have hfind := ih hrs e h
      have hmem : e ∈ rest := sketchUniqueCol_mem h
      have hgt : ∀ f ∈ rest, x.value < f.value := by
        cases hr : rest with
        | nil => simp
        | cons r0 rtl =>
          have h0 : sketchUniqueEq x r0 = false := by
            refine head?_dropWhile_false xs r0 ?_
            rw [← hrest, hr]
            simp
          have h0le : x.value ≤ r0.value :=
            htail.1 r0 ((List.dropWhile_sublist _).mem
              (by rw [← hrest, hr]; simp))
          have h0ne : x.value ≠ r0.value := by
            intro he
            simp [sketchUniqueEq, he] at h0
          have h0lt : x.value < r0.value := lt_of_le_of_ne h0le h0ne
          intro f hf
          rcases List.mem_cons.mp hf with h' | h'
          · exact h' ▸ h0lt
          · have hrs' := hr ▸ hrs
            exact lt_of_lt_of_le h0lt
              ((List.pairwise_cons.mp hrs').1 f h')
      have hne : (x.value == e.value) = false := by
        rw [beq_eq_false_iff_ne]
        exact ne_of_lt (hgt e hmem)
      rw [List.find?_cons_of_neg _ (by simp [hne])]
      have hsplit := List.takeWhile_append_dropWhile
        (p := fun y => sketchUniqueEq x y) (l := xs)
      rw [← hsplit, List.find?_append]
      have htake : (xs.takeWhile (fun y => sketchUniqueEq x y)).find?
          (fun f => f.value == e.value) = none := by
        rw [List.find?_eq_none]
        intro f hf
        have heqx : sketchUniqueEq x f = true := List.mem_takeWhile_imp hf
        have : f.value = x.value := by
          simp [sketchUniqueEq, sub_eq_zero] at heqx
          exact heqx.symm
        have hlt := hgt e hmem
        simp only [beq_iff_eq]
        rw [this]
        exact ne_of_lt hlt
      rw [htake]
      simpa using hfind

/-! ## Correctness of the rank-bound repair pass -/

/-- The monotonicity `FixError` establishes between adjacent entries. -/
def RelW (u w : SketchEntry) : Prop := u.rmin ≤ w.rmin ∧ u.rmax ≤ w.rmax

instance : ∀ u w, Decidable (RelW u w) := fun u w => by unfold RelW; infer_instance

theorem fixErrorGo_shape :
    ∀ (l : List SketchEntry) (pm px : ℚ),
      (fixErrorGo pm px l).map (fun e => (e.value, e.wmin)) =
        l.map (fun e => (e.value, e.wmin)) := by
  intro l
  induction l with
  | nil => intro pm px; simp [fixErrorGo]
  | cons e rest ih => intro pm px; simp [fixErrorGo, ih]

theorem fixErrorGo_post :
    ∀ (l : List SketchEntry) (pm px : ℚ),
      (∀ hd ∈ (fixErrorGo pm px l).head?, pm ≤ hd.rmin ∧ px ≤ hd.rmax) ∧
        (∀ e ∈ fixErrorGo pm px l, e.rmin ≤ e.rmax) ∧
        (fixErrorGo pm px l).Chain' RelW := by
  intro l
  induction l with
  | nil => intro pm px; simp [fixErrorGo]
  | cons e rest ih =>
    intro pm px
    obtain ⟨ih1, ih2, ih3⟩ := ih (max e.rmin pm) (max e.rmax (max (max e.rmin pm) px))
    refine ⟨?_, ?_, ?_⟩
    · intro hd hhd
      simp only [fixErrorGo, List.head?_cons, Option.mem_some_iff] at hhd
      subst hhd
      constructor
      · exact le_max_right _ _
      · exact le_trans (le_max_right _ _) (le_max_right _ _)
    · intro f hf
      simp only [fixErrorGo, List.mem_cons] at hf
      rcases hf with h | h
      · subst h
        exact le_trans (le_max_left _ _) (le_max_right _ _)
      · exact ih2 f h
    · simp only [fixErrorGo]
      rw [List.chain'_cons']
      refine ⟨?_, ih3⟩
      intro z hz
      exact ih1 z hz

theorem fixErrorGo_id :
    ∀ (l : List SketchEntry) (pm px : ℚ),
      (∀ hd ∈ l.head?, pm ≤ hd.rmin ∧ px ≤ hd.rmax) →
      (∀ e ∈ l, e.rmin ≤ e.rmax) → l.Chain' RelW →
      fixErrorGo pm px l = l := by
  intro l
  induction l with
  | nil => intro pm px _ _ _; simp [fixErrorGo]
  | cons e rest ih =>
    intro pm px hh hx hc
    obtain ⟨h1, h2⟩ := hh e (by simp)
    have hrr : e.rmin ≤ e.rmax := hx e (by simp)
    have hmin : max e.rmin pm = e.rmin := max_eq_left h1
    have hmax : max e.rmax (max e.rmin px) = e.rmax :=
      max_eq_left (max_le hrr h2)
    rw [List.chain'_cons'] at hc
    obtain ⟨hcc, hc⟩ := hc
    have htail : fixErrorGo e.rmin e.rmax rest = rest := by
      refine ih e.rmin e.rmax ?_ (fun f hf => hx f (by simp [hf])) hc
      intro hd hhd
      exact hcc hd hhd
    simp only [fixErrorGo, hmin, hmax, htail]

theorem fixErrorCol_shape (l : List SketchEntry) :
    (fixErrorCol l).map (fun e => (e.value, e.wmin)) =
      l.map (fun e => (e.value, e.wmin)) := by
  cases l with
  | nil => simp [fixErrorCol]
  | cons e rest => exact fixErrorGo_shape (e :: rest) e.rmin e.rmin

theorem fixErrorCol_post (l : List SketchEntry) :
    (∀ e ∈ fixErrorCol l, e.rmin ≤ e.rmax) ∧
      (fixErrorCol l).Chain' RelW := by
  cases l with
  | nil => simp [fixErrorCol]
  | cons e rest =>
    obtain ⟨-, h2, h3⟩ := fixErrorGo_post (e :: rest) e.rmin e.rmin
    exact ⟨h2, h3⟩

theorem fixErrorCol_idem (l : List SketchEntry) :
    fixErrorCol (fixErrorCol l) = fixErrorCol l := by
  cases l with
  | nil => simp [fixErrorCol]
  | cons e rest =>
    obtain ⟨h1, h2, h3⟩ := fixErrorGo_post (e :: rest) e.rmin e.rmin
    have hunf : fixErrorCol (e :: rest) =
        ⟨e.value, e.rmin, max e.rmax e.rmin, e.wmin⟩ ::
          fixErrorGo e.rmin (max e.rmax e.rmin) rest := by
      simp [fixErrorCol, fixErrorGo, max_self]
    have hcol : fixErrorCol (fixErrorCol (e :: rest)) =
        fixErrorGo e.rmin e.rmin (fixErrorCol (e :: rest)) := by
      rw [hunf]
      simp only [fixErrorCol]
    rw [hcol]
    exact fixErrorGo_id _ e.rmin e.rmin h1 h2 h3

/-- Pass `FixError` does not change an already-valid summary. -/
theorem fixErrorCol_id_of_valid {l : List SketchEntry}
    (h : SummaryValid l) : fixErrorCol l = l := by
  cases l with
  | nil => simp [fixErrorCol]
  | cons e rest =>
    have hch : (e :: rest).Chain' RelW := by
      refine (h.2.imp_of_mem ?_).chain'
      intro u w hu hw hr
      obtain ⟨-, huw, -⟩ := h.1 u hu
      obtain ⟨-, hww, -⟩ := h.1 w hw
      obtain ⟨-, r2, r3⟩ := hr
      exact ⟨by linarith, by linarith⟩
    refine fixErrorGo_id _ e.rmin e.rmin ?_ ?_ hch
    · intro hd hhd
      simp only [List.head?_cons, Option.mem_some_iff] at hhd
      subst hhd
      obtain ⟨-, hw, hm⟩ := h.1 e (by simp)
      exact ⟨le_refl _, by linarith⟩
    · intro f hf
      obtain ⟨-, hw, hm⟩ := h.1 f hf
      linarith

/-! ## Correctness of pruning -/

theorem pruneColumn_sublist (tgt : ℕ) (l : List SketchEntry) :
    (pruneColumn tgt l).Sublist l := by
  unfold pruneColumn
  split
  · exact List.Sublist.refl l
  · have h1 := List.Sublist.map Prod.snd
      (List.filter_sublist (p := fun p => decide (p.1 ∈ pruneCandidates tgt l)) l.enum)
    rwa [List.enum_map_snd] at h1

theorem pruneColumn_noop {tgt : ℕ} {l : List SketchEntry}
    (h : l.length ≤ tgt) : pruneColumn tgt l = l := by
  unfold pruneColumn
  exact if_pos h

theorem pruneColumn_length_le_self (tgt : ℕ) (l : List SketchEntry) :
    (pruneColumn tgt l).length ≤ l.length :=
  (pruneColumn_sublist tgt l).length_le

theorem pruneCandidates_length {tgt : ℕ} (h2 : 2 ≤ tgt)
    (l : List SketchEntry) : (pruneCandidates tgt l).length = tgt := by
  unfold pruneCandidates
  rw [List.length_cons, List.length_cons, List.length_map, List.length_range]
  omega

theorem pruneColumn_length_le {tgt : ℕ} (h2 : 2 ≤ tgt)
    (l : List SketchEntry) : (pruneColumn tgt l).length ≤ tgt := by
  unfold pruneColumn
  split
  · assumption
  · rw [List.length_map]
    set F := l.enum.filter (fun p => decide (p.1 ∈ pruneCandidates tgt l)) with hF
    have hmsub : (F.map Prod.fst).Sublist (List.range l.length) := by
      have := List.Sublist.map Prod.fst
        (List.filter_sublist (p := fun p => decide (p.1 ∈ pruneCandidates tgt l)) l.enum)
      rwa [List.enum_map_fst] at this
    have hnodup : (F.map Prod.fst).Nodup := hmsub.nodup (List.nodup_range _)
    have hsubset : (F.map Prod.fst).toFinset ⊆ (pruneCandidates tgt l).toFinset := by
      intro i hi
      rw [List.mem_toFinset] at hi ⊢
      obtain ⟨p, hp, hpi⟩ := List.mem_map.mp hi
      have := (List.mem_filter.mp hp).2
      rw [decide_eq_true_eq] at this
      exact hpi ▸ this
    have hcard : F.length ≤ tgt := by
      have he1 : F.length = (F.map Prod.fst).length := (List.length_map _ _).symm
      rw [he1, ← List.toFinset_card_of_nodup hnodup]
      calc (F.map Prod.fst).toFinset.card
          ≤ (pruneCandidates tgt l).toFinset.card := Finset.card_le_card hsubset
        _ ≤ (pruneCandidates tgt l).length := List.toFinset_card_le _
        _ = tgt := pruneCandidates_length h2 l
    exact hcard

theorem pruneColumn_head_mem (tgt : ℕ) (x : SketchEntry)
    (xs : List SketchEntry) : x ∈ pruneColumn tgt (x :: xs) := by
  unfold pruneColumn
  split
  · simp
  · refine List.mem_map.mpr ⟨(0, x), ?_, rfl⟩
    refine List.mem_filter.mpr ⟨?_, ?_⟩
    · simp [List.enum_cons]
    · simp [pruneCandidates]

theorem pruneColumn_getLast_mem (tgt : ℕ) (l : List SketchEntry)
    (h : l ≠ []) : l.getLast h ∈ pruneColumn tgt l := by
  unfold pruneColumn
  split
  · exact List.getLast_mem h
  · have hn : 0 < l.length := List.length_pos.mpr h
    have hidx : l.length - 1 < l.enum.length := by
      rw [List.enum_length]; omega
    refine List.mem_map.mpr ⟨(l.length - 1, l.getLast h), ?_, rfl⟩
    refine List.mem_filter.mpr ⟨?_, ?_⟩
    · have hg : l.enum[l.length - 1] = (l.length - 1, l[l.length - 1]) :=
        List.getElem_enum l (l.length - 1) hidx
      rw [List.getLast_eq_getElem]
      exact hg ▸ List.getElem_mem hidx
    · simp [pruneCandidates]

theorem sorted_head_min {x : SketchEntry} {xs : List SketchEntry}
    (hs : (x :: xs).Pairwise (fun u w => u.value ≤ w.value)) :
    ∀ f ∈ x :: xs, x.value ≤ f.value := by
  intro f hf
  rcases List.mem_cons.mp hf with h | h
  · exact h ▸ le_refl _
  · exact (List.pairwise_cons.mp hs).1 f h

theorem sorted_getLast_max {l : List SketchEntry}
    (hs : l.Pairwise (fun u w => u.value ≤ w.value)) (h : l ≠ []) :
    ∀ f ∈ l, f.value ≤ (l.getLast h).value := by
  intro f hf
  obtain ⟨i, hi, hif⟩ := List.mem_iff_getElem.mp hf
  rw [List.getLast_eq_getElem]
  rcases lt_or_ge i (l.length - 1) with hlt | hge
  · exact hif ▸ (List.pairwise_iff_getElem.mp hs i (l.length - 1) hi (by omega) hlt)
  · have : i = l.length - 1 := by omega
    subst this
    exact hif ▸ le_refl _

/-! ## Segment bookkeeping for the flat CSC layout -/

theorem chain_le_head_getLast :
    ∀ (l : List ℕ), l.Chain' (· ≤ ·) →
      ∀ a ∈ l.head?, ∀ b ∈ l.getLast?, a ≤ b := by
  intro l
  induction l with
  | nil => simp
  | cons x xs ih =>
    intro hc a ha b hb
    simp only [List.head?_cons, Option.mem_some_iff] at ha
    subst ha
    cases xs with
    | nil =>
      simp only [List.getLast?_singleton, Option.mem_some_iff] at hb
      omega
    | cons y ys =>
      rw [List.chain'_cons] at hc
      rw [List.getLast?_cons_cons] at hb
      exact le_trans hc.1 (ih hc.2 y (by simp) b hb)

theorem segments_flatten_aux :
    ∀ (tail : List ℕ) (p0 : ℕ) (es : List SketchEntry),
      (p0 :: tail).Chain' (· ≤ ·) →
      (p0 :: tail).getLast? = some es.length →
      (segments (p0 :: tail) es).flatten = (es.drop p0).take (es.length - p0) := by
  intro tail
  induction tail with
  | nil =>
    intro p0 es _ hl
    simp only [List.getLast?_singleton, Option.some_inj] at hl
    subst hl
    simp [segments]
  | cons p1 rest ih =>
    intro p0 es hc hl
    rw [List.chain'_cons] at hc
    rw [List.getLast?_cons_cons] at hl
    have h01 : p0 ≤ p1 := hc.1
    have h1L : p1 ≤ es.length :=
      chain_le_head_getLast _ hc.2 p1 (by simp) es.length hl
    have hIH := ih p1 es hc.2 hl
    simp only [segments, List.flatten_cons, hIH]
    have hdd : es.drop p1 = (es.drop p0).drop (p1 - p0) := by
      rw [List.drop_drop]
      congr 1
      omega
    have hsum : es.length - p0 = (p1 - p0) + (es.length - p1) := by omega
    rw [hdd, hsum, List.take_add]

/-- For a well-formed layout, the segments partition the flat buffer. -/
theorem segments_flatten {ptr : List ℕ} {es : List SketchEntry}
    (h0 : ptr.head? = some 0) (hl : ptr.getLast? = some es.length)
    (hc : ptr.Chain' (· ≤ ·)) : (segments ptr es).flatten = es := by
  cases ptr with
  | nil => simp at h0
  | cons p0 rest =>
    simp only [List.head?_cons, Option.some_inj] at h0
    subst h0
    rw [segments_flatten_aux rest 0 es hc hl]
    simp

theorem offsets_head : ∀ (l : List ℕ) (a : ℕ), ∃ t, offsets a l = a :: t := by
  intro l a
  cases l with
  | nil => exact ⟨[], rfl⟩
  | cons n ns => exact ⟨offsets (a + n) ns, rfl⟩

/-- Cutting a flat buffer at offsets rebuilt from the very column lengths
recovers the columns. -/
theorem segments_offsets :
    ∀ (cols : List (List SketchEntry)) (acc : ℕ) (pre : List SketchEntry),
      pre.length = acc →
      segments (offsets acc (cols.map List.length)) (pre ++ cols.flatten) = cols := by
  intro cols
  induction cols with
  | nil => intro acc pre _; simp [offsets, segments]
  | cons c cs ih =>
    intro acc pre hacc
    obtain ⟨t, ht⟩ := offsets_head (cs.map List.length) (acc + c.length)
    simp only [List.map_cons, offsets, ht, segments]
    congr 1
    · have hdrop : (pre ++ (c :: cs).flatten).drop acc = c ++ cs.flatten := by
        rw [← hacc, List.flatten_cons, List.drop_left]
      rw [hdrop]
      have : acc + c.length - acc = c.length := by omega
      rw [this, List.take_left]
    · have hpre : (pre ++ (c :: cs).flatten) = (pre ++ c) ++ cs.flatten := by
        simp [List.flatten_cons]
      rw [← ht, List.flatten_cons, ← List.append_assoc]
      have := ih (acc + c.length) (pre ++ c) (by simp [hacc])
      simpa using this

/-! ## Operation sequences over the per-column view of the container -/

/-- One mutating container operation, acting on the per-column view
(`segments` of the current buffer).  `push` replaces the columns with the
freshly ingested batch (spec §4.1: the ingested entries occupy the other
buffer, which then becomes current); `merge` combines column-wise with
another valid sketch (spec §4.3); `prune`, `unique` and `fixError` act
column-wise. -/
inductive SketchStep : List (List SketchEntry) → List (List SketchEntry) → Prop where
  | push (s : List (List SketchEntry)) (inputs : List (List (ℚ × ℚ)))
      (hsorted : ∀ raw ∈ inputs, raw.Pairwise (fun p q => p.1 ≤ q.1))
      (hw : ∀ raw ∈ inputs, ∀ p ∈ raw, 0 ≤ p.2) :
      SketchStep s (inputs.map pushColumn)
  | merge (s other : List (List SketchEntry))
      (hother : ∀ c ∈ other, SummaryValid c) :
      SketchStep s (List.zipWith setCombine s other)
  | prune (s : List (List SketchEntry)) (tgt : ℕ) :
      SketchStep s (s.map (pruneColumn tgt))
  | unique (s : List (List SketchEntry)) :
      SketchStep s (s.map sketchUniqueCol)
  | fixError (s : List (List SketchEntry)) :
      SketchStep s (s.map fixErrorCol)

theorem mem_zipWith_setCombine {c : List SketchEntry}
    {l1 l2 : List (List SketchEntry)}
    (h : c ∈ List.zipWith setCombine l1 l2) :
    ∃ a b, a ∈ l1 ∧ b ∈ l2 ∧ c = setCombine a b := by
  induction l1 generalizing l2 with
  | nil => simp [List.zipWith] at h
  | cons x xs ih =>
    cases l2 with
    | nil => simp [List.zipWith] at h
    | cons y ys =>
      simp only [List.zipWith, List.mem_cons] at h
      rcases h with h | h
      · exact ⟨x, y, by simp, by simp, h⟩
      · obtain ⟨a, b, ha, hb, hc⟩ := ih h
        exact ⟨a, b, by simp [ha], by simp [hb], hc⟩

/-- Every mutating operation maps valid columns to valid columns. -/
theorem sketchStep_preserves {s t : List (List SketchEntry)}
    (hs : ∀ c ∈ s, SummaryValid c) (hstep : SketchStep s t) :
    ∀ c ∈ t, SummaryValid c := by
  cases hstep with
  | push inputs hsorted hw =>
    intro c hc
    obtain ⟨raw, hraw, hrc⟩ := List.mem_map.mp hc
    exact hrc ▸ pushColumn_valid (hsorted raw hraw) (hw raw hraw)
  | merge other hother =>
    intro c hc
    obtain ⟨a, b, ha, hb, hc'⟩ := mem_zipWith_setCombine hc
    exact hc' ▸ setCombine_valid (hs a ha) (hother b hb)
  | prune tgt =>
    intro c hc
    obtain ⟨a, ha, hac⟩ := List.mem_map.mp hc
    exact hac ▸ summaryValid_sublist (pruneColumn_sublist tgt a) (hs a ha)
  | unique =>
    intro c hc
    obtain ⟨a, ha, hac⟩ := List.mem_map.mp hc
    exact hac ▸ summaryValid_sublist (sketchUniqueCol_sublist a) (hs a ha)
  | fixError =>
    intro c hc
    obtain ⟨a, ha, hac⟩ := List.mem_map.mp hc
    rw [← hac, fixErrorCol_id_of_valid (hs a ha)]
    exact hs a ha

theorem summaryValid_nil : SummaryValid ([] : List SketchEntry) :=
  ⟨by simp, by simp⟩

/-- Validity of every column holds after any sequence of operations from
the freshly constructed (all-columns-empty) container. -/
theorem sketch_reachable_valid {k : ℕ} {s : List (List SketchEntry)}
    (h : Relation.ReflTransGen SketchStep
      (List.replicate k ([] : List SketchEntry)) s) :
    ∀ c ∈ s, SummaryValid c := by
  induction h with
  | refl =>
    intro c hc
    rw [List.eq_of_mem_replicate hc]
    exact summaryValid_nil
  | tail _ hstep ih => exact sketchStep_preserves ih hstep

/-! ## Claim theorems -/

/-- C6: `FixError` processes each column in value order and produces, for
every entry, a `rank_min` no less than the previous entry's `rank_min`, and
a `rank_max` no less than both that entry's own `rank_min` and the previous
entry's `rank_max`; it never removes, adds or reorders entries and leaves
the values, the weights and the column layout unchanged. -/
theorem fixError_monotone_pass :
    ∀ l : List SketchEntry,
      (fixErrorCol l).length = l.length ∧
      (fixErrorCol l).map (fun e => (e.value, e.wmin)) =
        l.map (fun e => (e.value, e.wmin)) ∧
      (∀ e ∈ fixErrorCol l, e.rmin ≤ e.rmax) ∧
      (fixErrorCol l).Chain' RelW ∧
      ∀ cols : List (List SketchEntry),
        (cols.map fixErrorCol).map List.length = cols.map List.length := by
  intro l
  obtain ⟨h1, h2⟩ := fixErrorCol_post l
  have hshape := fixErrorCol_shape l
  have hlen : (fixErrorCol l).length = l.length := by
    have := congrArg List.length hshape
    simpa using this
  refine ⟨hlen, hshape, h1, h2, ?_⟩
  intro cols
  rw [List.map_map]
  refine List.map_congr_left ?_
  intro c _
  have := congrArg List.length (fixErrorCol_shape c)
  simpa using this

/-- C7: `FixError` is idempotent: a second call immediately after a first
changes no entry (value, `rank_min`, `rank_max`, `weight_min`) nor the
column layout. -/
theorem fixError_idempotent :
    ∀ l : List SketchEntry, fixErrorCol (fixErrorCol l) = fixErrorCol l ∧
      ∀ cols : List (List SketchEntry),
        (cols.map fixErrorCol).map fixErrorCol = cols.map fixErrorCol := by
  intro l
  refine ⟨fixErrorCol_idem l, ?_⟩
  intro cols
  rw [List.map_map]
  refine List.map_congr_left ?_
  intro c _
  exact fixErrorCol_idem c

/-- C9: the two backing buffers are always distinct: `Current()` and
`Other()` denote different arrays for every state of the flag,
`Alternate()` swaps their roles, and two `Alternate()` calls restore the
original assignment. -/
theorem double_buffer_distinct_swap :
    ∀ cb : Bool,
      currentId cb ≠ otherId cb ∧
      currentId (alternateFlag cb) = otherId cb ∧
      otherId (alternateFlag cb) = currentId cb ∧
      alternateFlag (alternateFlag cb) = cb := by decide

/-- C8: precondition violations are fatal: when the column layout size
disagrees with `num_columns + 1`, `Unique`'s `CHECK_EQ` aborts the process
(modelled `none`) instead of returning an error value, and the same fatal
policy applies to a mismatched column layout in `Push`. -/
theorem precondition_violation_fatal :
    ∀ (s : SketchState) (ptr : List ℕ) (cols : List (List (ℚ × ℚ))),
      (s.columns_ptr.length ≠ s.num_columns + 1 → uniqueOp s = none) ∧
      (ptr.length ≠ s.num_columns + 1 → pushOp s ptr cols = none) := by
  intro s ptr cols
  constructor
  · intro h
    unfold uniqueOp
    exact if_neg h
  · intro h
    unfold pushOp
    exact if_neg h

/-- Witness for C8 at a concrete container with a bad layout. -/
theorem precondition_violation_fatal_witness :
    ([] : List ℕ).length ≠ 0 + 1 ∧
      uniqueOp ⟨0, 0, 2, 0, [], [], true, [], [], [], false⟩ = none ∧
      pushOp ⟨0, 0, 2, 0, [], [], true, [], [], [], false⟩ [] [] = none := by
  refine ⟨by decide, ?_, ?_⟩
  · exact (precondition_violation_fatal
      ⟨0, 0, 2, 0, [], [], true, [], [], [], false⟩ [] []).1 (by decide)
  · exact (precondition_violation_fatal
      ⟨0, 0, 2, 0, [], [], true, [], [], [], false⟩ [] []).2 (by decide)

/-- C10: `HasCategorical()` is fixed at construction: it is true iff the
feature-types array given to the constructor is non-empty and marks some
feature categorical (in particular false for an empty array), and no
mutating operation changes it. -/
theorem hasCategorical_from_construction :
    ∀ (ft : List FeatureType) (mb : ℤ) (nc nr : ℕ) (dev : ℤ)
      (s : SketchState),
      0 ≤ dev → sketchContainerInit ft mb nc nr dev = some s →
      ((s.has_categorical = true) ↔ ft ≠ [] ∧ ∃ f ∈ ft, isCat f = true) ∧
      (ft = [] → s.has_categorical = false) ∧
      (∀ (t t' : SketchState) (n : ℕ), uniqueOp t = some (t', n) →
        t'.has_categorical = t.has_categorical) ∧
      (∀ (t t' : SketchState) (ptr : List ℕ) (cols : List (List (ℚ × ℚ))),
        pushOp t ptr cols = some t' →
        t'.has_categorical = t.has_categorical) := by
  intro ft mb nc nr dev s hdev hinit
  unfold sketchContainerInit at hinit
  rw [if_pos hdev] at hinit
  have hs := Option.some_inj.mp hinit
  refine ⟨?_, ?_, ?_, ?_⟩
  · rw [← hs]
    simp [List.any_eq_true, List.isEmpty_iff]
  · intro hft
    rw [← hs]
    simp [hft]
  · intro t t' n hu
    unfold uniqueOp at hu
    by_cases hc : t.columns_ptr.length = t.num_columns + 1
    · rw [if_pos hc] at hu
      obtain ⟨ht, -⟩ := Prod.mk.injEq .. ▸ Option.some_inj.mp hu
      rw [← ht]
    · rw [if_neg hc] at hu
      exact absurd hu (by simp)
  · intro t t' ptr cols hp
    unfold pushOp at hp
    by_cases hc : ptr.length = t.num_columns + 1
    · rw [if_pos hc] at hp
      rw [← Option.some_inj.mp hp]
    · rw [if_neg hc] at hp
      exact absurd hp (by simp)

/-- Witness for C10: a two-feature array with one categorical feature. -/
theorem hasCategorical_from_construction_witness :
    (0 : ℤ) ≤ 0 ∧
      sketchContainerInit [FeatureType.numerical, FeatureType.categorical]
          16 2 4 0 =
        some ⟨4, 2, 16, 0, [], [], true, [0, 0, 0], [0, 0, 0],
          [FeatureType.numerical, FeatureType.categorical], true⟩ ∧
      ((true = true) ↔
        ([FeatureType.numerical, FeatureType.categorical] ≠ [] ∧
          ∃ f ∈ [FeatureType.numerical, FeatureType.categorical],
            isCat f = true)) := by
  refine ⟨by decide, by decide, ?_⟩
  have h := hasCategorical_from_construction
    [FeatureType.numerical, FeatureType.categorical] 16 2 4 0
    ⟨4, 2, 16, 0, [], [], true, [0, 0, 0], [0, 0, 0],
      [FeatureType.numerical, FeatureType.categorical], true⟩
    (by decide) (by decide)
  exact h.1

/-- A concrete container: one column, two equal-valued entries in the
current (`entries_a_`) buffer. -/
def c3State : SketchState :=
  ⟨2, 1, 2, 0, [⟨1, 0, 1, 1⟩, ⟨1, 0, 1, 1⟩], [], true, [0, 2], [0, 0], [], false⟩

/-- The container after `Unique`: compacted in place in `entries_a_`,
layout updated, flag unchanged. -/
def c3StateAfter : SketchState :=
  ⟨2, 1, 2, 0, [⟨1, 0, 1, 1⟩], [], true, [0, 1], [0, 0], [], false⟩

/-- C3 is false on the code: at this concrete container, `Unique` succeeds
but leaves `current_buffer_` unchanged (no `Alternate()` flip), writes its
compacted output over the current buffer (`entries_a_` changes), and does
not touch the other buffer. -/
theorem unique_not_double_buffered_counterexample :
    uniqueOp c3State = some (c3StateAfter, 1) ∧
      c3StateAfter.current_buffer = c3State.current_buffer ∧
      alternateFlag c3State.current_buffer ≠ c3StateAfter.current_buffer ∧
      c3StateAfter.entries_b = c3State.entries_b ∧
      c3StateAfter.entries_a ≠ c3State.entries_a := by
  refine ⟨?_, by decide, by decide, by decide, by decide⟩
  simp +decide [uniqueOp, c3State, c3StateAfter, currentEntries, segments,
    sketchUniqueCol, sketchUniqueEq, offsets]

/-- C3 (amended): `Unique` — unlike merge and prune — is performed in
place: `dh::SegmentedUnique` writes the compacted output over the current
buffer (which is then resized), the buffer-role flag does not flip, and the
other buffer is untouched; the previous generation of the current buffer is
overwritten rather than preserved. -/
theorem unique_in_place :
    ∀ (s s' : SketchState) (n : ℕ), uniqueOp s = some (s', n) →
      s'.current_buffer = s.current_buffer ∧
      otherEntries s' = otherEntries s ∧
      s'.columns_ptr_b = s.columns_ptr_b ∧
      currentEntries s' =
        ((segments s.columns_ptr (currentEntries s)).map
          sketchUniqueCol).flatten := by
  intro s s' n h
  unfold uniqueOp at h
  by_cases hc : s.columns_ptr.length = s.num_columns + 1
  · rw [if_pos hc] at h
    obtain ⟨ht, -⟩ := Prod.mk.injEq .. ▸ Option.some_inj.mp h
    rw [← ht]
    refine ⟨rfl, ?_, rfl, ?_⟩
    · unfold otherEntries
      cases hb : s.current_buffer <;> simp [hb]
    · unfold currentEntries
      cases hb : s.current_buffer <;> simp [hb]
  · rw [if_neg hc] at h
    exact absurd h (by simp)

/-- Witness for the amended C3 at the concrete one-column container. -/
theorem unique_in_place_witness :
    uniqueOp c3State = some (c3StateAfter, 1) ∧
      c3StateAfter.current_buffer = c3State.current_buffer ∧
      otherEntries c3StateAfter = otherEntries c3State ∧
      c3StateAfter.columns_ptr_b = c3State.columns_ptr_b ∧
      currentEntries c3StateAfter =
        ((segments c3State.columns_ptr (currentEntries c3State)).map
          sketchUniqueCol).flatten := by
  have heval : uniqueOp c3State = some (c3StateAfter, 1) := by
    simp +decide [uniqueOp, c3State, c3StateAfter, currentEntries, segments,
      sketchUniqueCol, sketchUniqueEq, offsets]
  exact ⟨heval, unique_in_place c3State c3StateAfter 1 heval⟩

/-- C4 is false on the code: in a run of two entries with equal value, the
kept representative is the first one, whose `rank_max` (1) is not the
maximum across the run (5). -/
theorem unique_keeps_first_not_max_rmax_counterexample :
    sketchUniqueCol [⟨1, 0, 1, 1⟩, ⟨1, 0, 5, 1⟩] = [⟨1, 0, 1, 1⟩] ∧
      sketchUniqueEq ⟨1, 0, 1, 1⟩ ⟨1, 0, 5, 1⟩ = true ∧
      ¬ ∀ e ∈ sketchUniqueCol [⟨1, 0, 1, 1⟩, ⟨1, 0, 5, 1⟩],
          ∀ f ∈ [(⟨1, 0, 1, 1⟩ : SketchEntry), ⟨1, 0, 5, 1⟩],
            f.rmax ≤ e.rmax := by
  refine ⟨?_, by simp [sketchUniqueEq], ?_⟩
  · simp +decide [sketchUniqueCol, sketchUniqueEq]
  · intro hall
    have h1 : (⟨1, 0, 1, 1⟩ : SketchEntry) ∈
        sketchUniqueCol [⟨1, 0, 1, 1⟩, ⟨1, 0, 5, 1⟩] := by
      simp +decide [sketchUniqueCol, sketchUniqueEq]
    have := hall _ h1 ⟨1, 0, 5, 1⟩ (by simp)
    norm_num at this

/-- C4 (amended): for a value-sorted column, the representative `Unique`
keeps for each duplicate run is the *first* entry of the run — the earliest
entry of the column carrying that value — not one of maximal `rank_max`. -/
theorem unique_keeps_first_of_run :
    ∀ (l : List SketchEntry), l.Pairwise (fun u w => u.value ≤ w.value) →
      ∀ e ∈ sketchUniqueCol l, e ∈ l ∧
        l.find? (fun f => f.value == e.value) = some e := by
  intro l hs e he
  exact ⟨sketchUniqueCol_mem he, sketchUniqueCol_keeps_first l hs e he⟩

/-- Witness for the amended C4 at a concrete two-entry run. -/
theorem unique_keeps_first_of_run_witness :
    ([⟨1, 0, 1, 1⟩, ⟨1, 0, 5, 1⟩] : List SketchEntry).Pairwise
        (fun u w => u.value ≤ w.value) ∧
      ((⟨1, 0, 1, 1⟩ : SketchEntry) ∈
          ([⟨1, 0, 1, 1⟩, ⟨1, 0, 5, 1⟩] : List SketchEntry) ∧
        ([⟨1, 0, 1, 1⟩, ⟨1, 0, 5, 1⟩] : List SketchEntry).find?
            (fun f => f.value == (⟨1, 0, 1, 1⟩ : SketchEntry).value) =
          some ⟨1, 0, 1, 1⟩) := by
  refine ⟨by decide, ?_⟩
  refine unique_keeps_first_of_run _ (by decide) _ ?_
  simp +decide [sketchUniqueCol, sketchUniqueEq]

/-- C5: `Prune(to)` leaves every column with at most `to` entries, never
increases a column's entry count, is a no-op on a column already within
budget, and keeps the minimum-value and maximum-value entries of each
pruned column.  (`to ≥ 2` — the budget always accommodates the two boundary
entries the algorithm retains; columns are value-sorted.) -/
theorem prune_contract :
    ∀ (tgt : ℕ) (l : List SketchEntry), 2 ≤ tgt →
      l.Pairwise (fun u w => u.value ≤ w.value) →
      (pruneColumn tgt l).length ≤ tgt ∧
      (pruneColumn tgt l).length ≤ l.length ∧
      (l.length ≤ tgt → pruneColumn tgt l = l) ∧
      ∀ h : l ≠ [],
        l.head h ∈ pruneColumn tgt l ∧
        l.getLast h ∈ pruneColumn tgt l ∧
        (∀ f ∈ l, (l.head h).value ≤ f.value) ∧
        (∀ f ∈ l, f.value ≤ (l.getLast h).value) := by
  intro tgt l h2 hs
  refine ⟨pruneColumn_length_le h2 l, pruneColumn_length_le_self tgt l,
    fun h => pruneColumn_noop h, ?_⟩
  intro hne
  cases l with
  | nil => exact absurd rfl hne
  | cons x xs =>
    refine ⟨?_, pruneColumn_getLast_mem tgt _ hne, ?_,
      sorted_getLast_max hs hne⟩
    · simpa using pruneColumn_head_mem tgt x xs
    · simpa using sorted_head_min hs

/-- Witness for C5: pruning a sorted three-entry column to two entries. -/
theorem prune_contract_witness :
    2 ≤ 2 ∧
      ([⟨1, 0, 1, 1⟩, ⟨2, 1, 2, 1⟩, ⟨3, 2, 3, 1⟩] :
          List SketchEntry).Pairwise (fun u w => u.value ≤ w.value) ∧
      ((pruneColumn 2 [⟨1, 0, 1, 1⟩, ⟨2, 1, 2, 1⟩, ⟨3, 2, 3, 1⟩]).length ≤ 2 ∧
        (pruneColumn 2 [⟨1, 0, 1, 1⟩, ⟨2, 1, 2, 1⟩, ⟨3, 2, 3, 1⟩]).length ≤
          ([⟨1, 0, 1, 1⟩, ⟨2, 1, 2, 1⟩, ⟨3, 2, 3, 1⟩] :
            List SketchEntry).length ∧
        (([⟨1, 0, 1, 1⟩, ⟨2, 1, 2, 1⟩, ⟨3, 2, 3, 1⟩] :
            List SketchEntry).length ≤ 2 →
          pruneColumn 2 [⟨1, 0, 1, 1⟩, ⟨2, 1, 2, 1⟩, ⟨3, 2, 3, 1⟩] =
            [⟨1, 0, 1, 1⟩, ⟨2, 1, 2, 1⟩, ⟨3, 2, 3, 1⟩]) ∧
        ∀ h : ([⟨1, 0, 1, 1⟩, ⟨2, 1, 2, 1⟩, ⟨3, 2, 3, 1⟩] :
            List SketchEntry) ≠ [],
          ([⟨1, 0, 1, 1⟩, ⟨2, 1, 2, 1⟩, ⟨3, 2, 3, 1⟩] :
              List SketchEntry).head h ∈
            pruneColumn 2 [⟨1, 0, 1, 1⟩, ⟨2, 1, 2, 1⟩, ⟨3, 2, 3, 1⟩] ∧
          ([⟨1, 0, 1, 1⟩, ⟨2, 1, 2, 1⟩, ⟨3, 2, 3, 1⟩] :
              List SketchEntry).getLast h ∈
            pruneColumn 2 [⟨1, 0, 1, 1⟩, ⟨2, 1, 2, 1⟩, ⟨3, 2, 3, 1⟩] ∧
          (∀ f ∈ ([⟨1, 0, 1, 1⟩, ⟨2, 1, 2, 1⟩, ⟨3, 2, 3, 1⟩] :
              List SketchEntry),
            (([⟨1, 0, 1, 1⟩, ⟨2, 1, 2, 1⟩, ⟨3, 2, 3, 1⟩] :
              List SketchEntry).head h).value ≤ f.value) ∧
          ∀ f ∈ ([⟨1, 0, 1, 1⟩, ⟨2, 1, 2, 1⟩, ⟨3, 2, 3, 1⟩] :
              List SketchEntry),
            f.value ≤ (([⟨1, 0, 1, 1⟩, ⟨2, 1, 2, 1⟩, ⟨3, 2, 3, 1⟩] :
              List SketchEntry).getLast h).value) := by
  refine ⟨by decide, by decide, ?_⟩
  exact prune_contract 2 _ (by decide) (by decide)

/-- C1: after any sequence of Push, Merge, Prune, Unique and FixError
starting from the freshly constructed container, every entry of every
column satisfies `rank_min ≤ rank_max`, and value, `rank_min` and
`rank_max` are all monotonically non-decreasing in value order within each
column. -/
theorem sketch_rank_bounds_invariant :
    ∀ (k : ℕ) (s : List (List SketchEntry)),
      Relation.ReflTransGen SketchStep
        (List.replicate k ([] : List SketchEntry)) s →
      ∀ c ∈ s, (∀ e ∈ c, e.rmin ≤ e.rmax) ∧
        c.Pairwise (fun u w => u.value ≤ w.value ∧
          u.rmin ≤ w.rmin ∧ u.rmax ≤ w.rmax) := by
  intro k s h c hc
  obtain ⟨h1, h2⟩ := claimInv_of_summaryValid (sketch_reachable_valid h c hc)
  exact ⟨h1, h2⟩

/-- Witness for C1: one column, a single Push of two weighted samples. -/
theorem sketch_rank_bounds_invariant_witness :
    (∀ e ∈ ([⟨1, 0, 2, 2⟩, ⟨3, 2, 6, 4⟩] : List SketchEntry),
        e.rmin ≤ e.rmax) ∧
      ([⟨1, 0, 2, 2⟩, ⟨3, 2, 6, 4⟩] : List SketchEntry).Pairwise
        (fun u w => u.value ≤ w.value ∧
          u.rmin ≤ w.rmin ∧ u.rmax ≤ w.rmax) := by
  have heval : ([[((1 : ℚ), (2 : ℚ)), ((3 : ℚ), (4 : ℚ))]].map pushColumn) =
      [[⟨1, 0, 2, 2⟩, ⟨3, 2, 6, 4⟩]] := by
    norm_num [pushColumn, dedupAccum, assignRanks]
  have hstep : SketchStep (List.replicate 1 ([] : List SketchEntry))
      [[⟨1, 0, 2, 2⟩, ⟨3, 2, 6, 4⟩]] :=
    heval ▸ SketchStep.push (List.replicate 1 [])
      [[((1 : ℚ), (2 : ℚ)), ((3 : ℚ), (4 : ℚ))]] (by decide) (by decide)
  exact sketch_rank_bounds_invariant 1 _
    (Relation.ReflTransGen.single hstep) _ (by simp)

theorem chain'_and {R S : SketchEntry → SketchEntry → Prop} :
    ∀ l : List SketchEntry, l.Chain' R → l.Chain' S →
      l.Chain' (fun a b => R a b ∧ S a b) := by
  intro l
  induction l with
  | nil => simp
  | cons x xs ih =>
    intro hR hS
    rw [List.chain'_cons'] at hR hS ⊢
    exact ⟨fun y hy => ⟨hR.1 y hy, hS.1 y hy⟩, ih hR.2 hS.2⟩

/-- C2: on a container with value-sorted columns and a well-formed layout,
`Unique` leaves, within each column, no two adjacent entries comparing
equal under `detail::SketchUnique` (so strictly increasing values), does
not increase the total entry count, and returns the new total entry count
across all columns — exactly the size the current buffer is resized to. -/
theorem unique_compacts_columns :
    ∀ s : SketchState,
      s.columns_ptr.length = s.num_columns + 1 →
      s.columns_ptr.head? = some 0 →
      s.columns_ptr.getLast? = some (currentEntries s).length →
      s.columns_ptr.Chain' (· ≤ ·) →
      (∀ c ∈ segments s.columns_ptr (currentEntries s),
        c.Pairwise (fun u w => u.value ≤ w.value)) →
      ∃ s' n, uniqueOp s = some (s', n) ∧
        n = (currentEntries s').length ∧
        n = ((segments s'.columns_ptr (currentEntries s')).map
          List.length).sum ∧
        (currentEntries s').length ≤ (currentEntries s).length ∧
        ∀ c ∈ segments s'.columns_ptr (currentEntries s'),
          c.Chain' (fun u w => sketchUniqueEq u w = false) ∧
          c.Chain' (fun u w => u.value < w.value) := by
  intro s hlen h0 hL hch hsorted
  set cols := segments s.columns_ptr (currentEntries s) with hcols
  set newCols := cols.map sketchUniqueCol with hnew
  set S2 : SketchState :=
    { s with
        columns_ptr := offsets 0 (newCols.map List.length)
        entries_a := if s.current_buffer then newCols.flatten
          else s.entries_a
        entries_b := if s.current_buffer then s.entries_b
          else newCols.flatten } with hS2
  have hu : uniqueOp s = some (S2, newCols.flatten.length) := by
    unfold uniqueOp
    rw [if_pos hlen]
  have hcur : currentEntries S2 = newCols.flatten := by
    rw [hS2]
    unfold currentEntries
    cases hb : s.current_buffer <;> simp [hb]
  have hptr : S2.columns_ptr = offsets 0 (newCols.map List.length) := by
    rw [hS2]
  have hseg : segments S2.columns_ptr (currentEntries S2) = newCols := by
    rw [hcur, hptr]
    have := segments_offsets newCols 0 [] rfl
    simpa using this
  refine ⟨S2, newCols.flatten.length, hu, ?_, ?_, ?_, ?_⟩
  · rw [hcur]
  · rw [hseg, List.length_flatten]
  · rw [hcur]
    have h1 : newCols.flatten.length = (newCols.map List.length).sum :=
      List.length_flatten newCols
    have h2 : (currentEntries s) = cols.flatten :=
      (segments_flatten h0 hL hch).symm
    rw [h1, h2, List.length_flatten]
    rw [hnew, List.map_map]
    refine List.sum_le_sum ?_
    intro c _
    exact (sketchUniqueCol_sublist c).length_le
  · intro c hc
    rw [hseg] at hc
    rw [hnew] at hc
    obtain ⟨a, ha, hac⟩ := List.mem_map.mp hc
    subst hac
    have hne := sketchUniqueCol_chain_ne a
    have hle : (sketchUniqueCol a).Pairwise
        (fun u w => u.value ≤ w.value) :=
      (hsorted a ha).sublist (sketchUniqueCol_sublist a)
    refine ⟨hne, ?_⟩
    have hand := chain'_and _ hle.chain' hne
    refine hand.imp ?_
    intro u w hw
    obtain ⟨hle', hne'⟩ := hw
    have : u.value ≠ w.value := by
      intro he
      simp [sketchUniqueEq, he] at hne'
    exact lt_of_le_of_ne hle' this

/-- Witness for C2: a one-column container with two equal-valued entries. -/
theorem unique_compacts_columns_witness :
    (⟨2, 1, 2, 0, [⟨1, 0, 1, 1⟩, ⟨1, 0, 2, 1⟩], [], true, [0, 2], [0, 0], [],
        false⟩ : SketchState).columns_ptr.length =
      (⟨2, 1, 2, 0, [⟨1, 0, 1, 1⟩, ⟨1, 0, 2, 1⟩], [], true, [0, 2], [0, 0],
        [], false⟩ : SketchState).num_columns + 1 ∧
    (∀ c ∈ segments [0, 2]
        (currentEntries ⟨2, 1, 2, 0, [⟨1, 0, 1, 1⟩, ⟨1, 0, 2, 1⟩], [], true,
          [0, 2], [0, 0], [], false⟩),
      c.Pairwise (fun u w => u.value ≤ w.value)) ∧
    ∃ s' n,
      uniqueOp ⟨2, 1, 2, 0, [⟨1, 0, 1, 1⟩, ⟨1, 0, 2, 1⟩], [], true, [0, 2],
        [0, 0], [], false⟩ = some (s', n) ∧
      n = (currentEntries s').length ∧
      n = ((segments s'.columns_ptr (currentEntries s')).map
        List.length).sum ∧
      (currentEntries s').length ≤
        (currentEntries ⟨2, 1, 2, 0, [⟨1, 0, 1, 1⟩, ⟨1, 0, 2, 1⟩], [], true,
          [0, 2], [0, 0], [], false⟩).length ∧
      ∀ c ∈ segments s'.columns_ptr (currentEntries s'),
        c.Chain' (fun u w => sketchUniqueEq u w = false) ∧
        c.Chain' (fun u w => u.value < w.value) := by
  refine ⟨by decide, by decide, ?_⟩
  exact unique_compacts_columns _ (by decide) (by decide) (by decide)
    (by simp) (by decide)

/-- Witness for C6: repairing a single entry whose `rank_max` dropped
below its `rank_min`. -/
theorem fixError_monotone_pass_witness :
    fixErrorCol [⟨1, 5, 3, 0⟩] = [⟨1, 5, 5, 0⟩] ∧
      ((fixErrorCol [⟨1, 5, 3, 0⟩]).length =
          ([⟨1, 5, 3, 0⟩] : List SketchEntry).length ∧
        (fixErrorCol [⟨1, 5, 3, 0⟩]).map (fun e => (e.value, e.wmin)) =
          ([⟨1, 5, 3, 0⟩] : List SketchEntry).map
            (fun e => (e.value, e.wmin)) ∧
        (∀ e ∈ fixErrorCol [⟨1, 5, 3, 0⟩], e.rmin ≤ e.rmax) ∧
        (fixErrorCol [⟨1, 5, 3, 0⟩]).Chain' RelW ∧
        ∀ cols : List (List SketchEntry),
          (cols.map fixErrorCol).map List.length = cols.map List.length) := by
  constructor
  · norm_num [fixErrorCol, fixErrorGo]
  · exact fixError_monotone_pass [⟨1, 5, 3, 0⟩]

/-- Witness for C7 at the same concrete column. -/
theorem fixError_idempotent_witness :
    fixErrorCol [⟨1, 5, 3, 0⟩] = [⟨1, 5, 5, 0⟩] ∧
      (fixErrorCol (fixErrorCol [⟨1, 5, 3, 0⟩]) =
          fixErrorCol [⟨1, 5, 3, 0⟩] ∧
        ∀ cols : List (List SketchEntry),
          (cols.map fixErrorCol).map fixErrorCol =
            cols.map fixErrorCol) := by
  constructor
  · norm_num [fixErrorCol, fixErrorGo]
  · exact fixError_idempotent [⟨1, 5, 3, 0⟩]

/-- Witness for C9 at the concrete flag value `true`. -/
theorem double_buffer_distinct_swap_witness :
    currentId true = BufId.bufA ∧ otherId true = BufId.bufB ∧
      (currentId true ≠ otherId true ∧
        currentId (alternateFlag true) = otherId true ∧
        otherId (alternateFlag true) = currentId true ∧
        alternateFlag (alternateFlag true) = true) := by
  exact ⟨by decide, by decide, double_buffer_distinct_swap true⟩

end XgbQuantile
